import Mathlib

/-!
Verification of the project content aggregator in `readme_gen.py`
(scanner `get_project_files`, type detector `detect_project_type`,
budgeted aggregator `collect_file_content`).

The Python code is shallowly embedded: the filesystem is modelled as a
tree of named entries, a file's read result is an input (`Option String`,
`none` standing for `UnicodeDecodeError`/`PermissionError`), and the
Python `str` operations used by the source (`str.lower`, slicing,
`pathlib.Path.suffix`, `str.join`) are reproduced as Lean functions on
`String`.
-/

/-- `SKIP_DIRS` from the source: directories to skip when scanning
(membership-only set, modelled as a list). -/
def SKIP_DIRS : List String :=
  [".git", "node_modules", "venv", ".venv", "__pycache__",
   ".pytest_cache", ".mypy_cache", "dist", "build", ".eggs",
   "egg-info", ".tox", "htmlcov", ".coverage"]

/-- `CODE_EXTENSIONS` from the source: file extensions to include. -/
def CODE_EXTENSIONS : List String :=
  [".py", ".js", ".ts", ".jsx", ".tsx", ".go", ".rs", ".java",
   ".rb", ".php", ".c", ".cpp", ".h", ".hpp", ".cs", ".swift"]

/-- `CONFIG_FILES` from the source. -/
def CONFIG_FILES : List String :=
  ["pyproject.toml", "setup.py", "setup.cfg", "requirements.txt",
   "package.json", "package-lock.json", "tsconfig.json",
   "go.mod", "go.sum", "Cargo.toml", "Cargo.lock",
   "Makefile", "Dockerfile", "docker-compose.yml", "docker-compose.yaml",
   ".env.example", ".env.sample", "config.yaml", "config.yml",
   "README.md", "README.rst", "README.txt", "LICENSE", "CHANGELOG.md"]

/-- `PRIORITY_FILES` from the source: priority files to read first
(an ordered list; the order is the priority). -/
def PRIORITY_FILES : List String :=
  ["README.md", "pyproject.toml", "package.json", "Cargo.toml", "go.mod",
   "setup.py", "requirements.txt", "main.py", "app.py", "index.js",
   "index.ts", "main.go", "lib.rs", "main.rs", "Dockerfile"]

/-- The `ext_to_lang` dict from `detect_project_type` (insertion order kept). -/
def ext_to_lang : List (String × String) :=
  [(".py", "Python"), (".js", "JavaScript"), (".ts", "TypeScript"),
   (".go", "Go"), (".rs", "Rust"), (".java", "Java"), (".rb", "Ruby"),
   (".php", "PHP"), (".c", "C"), (".cpp", "C++"), (".cs", "C#")]

/-! ### Python string primitives used by the source -/

/-- Index of the last occurrence of a character in a character list
(`str.rfind` restricted to single-character needles), `none` if absent. -/
def lastIdxOf (c : Char) : List Char → Option Nat
  | [] => none
  | d :: ds =>
    match lastIdxOf c ds with
    | some i => some (i + 1)
    | none => if d = c then some 0 else none

/-- `pathlib.PurePath.suffix` applied to a file name: the part from the last
dot on, provided the dot is neither the first nor the last character. -/
def pySuffix (name : String) : String :=
  match lastIdxOf '.' name.toList with
  | some i => if 0 < i ∧ i < name.length - 1 then String.mk (name.toList.drop i) else ""
  | none => ""

/-- `str.lower` (the source only lowercases ASCII extensions). -/
def pyLower (s : String) : String := String.mk (s.toList.map Char.toLower)

/-- Python slicing `s[:r]` with a possibly negative bound `r`
(negative bounds count from the end, clamped at 0). -/
def pyTake (s : String) (r : Int) : String :=
  String.mk (s.toList.take (if r < 0 then ((s.length : Int) + r).toNat else r.toNat))

/-- `sep.join(parts)` for Python strings. -/
def joinSep (sep : String) : List String → String
  | [] => ""
  | [s] => s
  | s :: rest => s ++ sep ++ joinSep sep rest

/-! ### `detect_project_type`

The detector only looks at each candidate path's final component
(`f.name`) and the extension derived from it (`f.suffix`), so its input is
embedded as the list of candidate file names, in scan order. -/

/-- One execution of `ext_counts[ext] = ext_counts.get(ext, 0) + 1` on an
insertion-ordered dict: update in place if present, else append with 1. -/
def bumpExt (counts : List (String × Nat)) (ext : String) : List (String × Nat) :=
  if counts.any (fun p => p.1 = ext) then
    counts.map (fun p => if p.1 = ext then (p.1, p.2 + 1) else p)
  else
    counts ++ [(ext, 1)]

/-- The `ext_counts` dict built by `detect_project_type`:
count candidates by lower-cased recognized extension, keys in insertion
order (Python dicts preserve insertion order). -/
def build_ext_counts (files : List String) : List (String × Nat) :=
  files.foldl
    (fun counts f =>
      let ext := pyLower (pySuffix f)
      if ext ∈ CODE_EXTENSIONS then bumpExt counts ext else counts)
    []

/-- `max(ext_counts, key=ext_counts.get)` over a nonempty dict: scan the
entries in order, replacing the current best only on a strictly greater
count, so the first key attaining the maximum wins. -/
def dictMaxGo (best : String × Nat) : List (String × Nat) → String × Nat
  | [] => best
  | q :: qs => dictMaxGo (if q.2 > best.2 then q else best) qs

/-- `detect_project_type` from the source, over the candidates' file names. -/
def detect_project_type (files : List String) : String :=
  if "pyproject.toml" ∈ files ∨ "setup.py" ∈ files ∨ "requirements.txt" ∈ files then
    "Python"
  else if "package.json" ∈ files then
    if files.any (fun f => pySuffix f = ".ts" ∨ pySuffix f = ".tsx") then
      "TypeScript/Node.js"
    else
      "JavaScript/Node.js"
  else if "go.mod" ∈ files then "Go"
  else if "Cargo.toml" ∈ files then "Rust"
  else if "pom.xml" ∈ files ∨ "build.gradle" ∈ files then "Java"
  else
    match build_ext_counts files with
    | [] => "Unknown"
    | c :: cs => ((ext_to_lang.lookup (dictMaxGo c cs).1).getD "Unknown")

/-! ### `get_project_files`

The directory tree under the root is a nested structure of named files and
directories; `root.rglob` enumerates every entry below the root together
with its full list of path components (`path.parts`, which includes the
resolved root's own components) and whether it is a regular file. -/

/-- A filesystem entry below the root: a regular file or a directory. -/
inductive FSEntry where
  | file (name : String)
  | dir (name : String) (children : List FSEntry)

mutual

/-- All entries at or below one entry, as (`path.parts`, `is_file`) pairs,
where `pre` is the parts of the containing directory. -/
def FSEntry.walk (pre : List String) : FSEntry → List (List String × Bool)
  | .file n => [(pre ++ [n], true)]
  | .dir n cs => (pre ++ [n], false) :: FSEntry.walkAll (pre ++ [n]) cs

/-- All entries at or below a list of sibling entries. -/
def FSEntry.walkAll (pre : List String) : List FSEntry → List (List String × Bool)
  | [] => []
  | e :: es => FSEntry.walk pre e ++ FSEntry.walkAll pre es

end

/-- The root path handed to `get_project_files`: either it does not exist,
or it exists but is a regular file, or it is a directory with the given
resolved path components and children. -/
inductive RootFS where
  | missing
  | plainFile (name : String)
  | dir (parts : List String) (children : List FSEntry)

/-- The exceptions `get_project_files` raises:
`FileNotFoundError f"Directory not found: ..."` and
`ValueError f"Not a directory: ..."`. -/
inductive PyError where
  | fileNotFoundError
  | valueErrorNotADirectory
deriving DecidableEq

/-- The scan loop of `get_project_files` over an existing root directory:
for each entry of `root.rglob`, skip it when any path component is in
`SKIP_DIRS`, skip non-files, then keep it when its name is a config file
or its lower-cased suffix is a code extension. -/
def scanFiles (rootParts : List String) (children : List FSEntry) : List (List String) :=
  (FSEntry.walkAll rootParts children).filterMap (fun entry =>
    if SKIP_DIRS.any (fun d => entry.1.contains d) then none
    else if !entry.2 then none
    else
      let name := entry.1.getLastD ""
      if name ∈ CONFIG_FILES then some entry.1
      else if pyLower (pySuffix name) ∈ CODE_EXTENSIONS then some entry.1
      else none)

/-- `get_project_files` from the source: raise if the root is missing or
not a directory, else return the kept paths (as their parts). -/
def get_project_files (root : RootFS) : Except PyError (List (List String)) :=
  match root with
  | .missing => .error .fileNotFoundError
  | .plainFile _ => .error .valueErrorNotADirectory
  | .dir parts children => .ok (scanFiles parts children)

/-! ### `collect_file_content`

A ranked candidate is embedded as its file name (`f.name`, used by the
priority key), its display path relative to the root (`relative`, used in
the section header), and its read result (`text`, with `none` standing for
the `UnicodeDecodeError` / `PermissionError` cases that the source
silently skips). -/

/-- A candidate file as `collect_file_content` observes it. -/
structure FileEntry where
  name : String
  relative : String
  text : Option String
deriving DecidableEq

/-- Python `PRIORITY_FILES.index(name)`: index of the first occurrence. -/
def listIndex (s : String) : List String → Nat
  | [] => 0
  | p :: ps => if p = s then 0 else listIndex s ps + 1

/-- The `priority_key` closure from `collect_file_content`. -/
def priority_key (f : FileEntry) : Nat :=
  if f.name ∈ PRIORITY_FILES then listIndex f.name PRIORITY_FILES else 1000

/-- `sorted(files, key=priority_key)`: Python's sort is a stable sort by
the key, embedded as a stable merge sort on the key comparison. -/
def sortFiles (files : List FileEntry) : List FileEntry :=
  files.mergeSort (fun a b => priority_key a ≤ priority_key b)

/-- The f-string `f"### {relative}\n{fence}\n{body}\n{fence}"` rendering one
file's section (the fence is three backticks). -/
def renderSection (relative body : String) : String :=
  "### " ++ relative ++ "\n```\n" ++ body ++ "\n```"

/-- The truncation marker appended to an oversized first file. -/
def TRUNCATION_MARKER : String := "\n[TRUNCATED]"

/-- The loop state of `collect_file_content`: `content_parts`,
`total_chars`, `files_included`. -/
structure AggState where
  parts : List String
  total : Nat
  included : Nat

/-- The `for file_path in sorted_files` loop of `collect_file_content`:
skip unreadable files; render the section; on overflow truncate-and-keep
when nothing has been included yet and always stop; otherwise append and
keep going. -/
def collectAux (max_chars : Nat) : List FileEntry → AggState → List String
  | [], st => st.parts
  | f :: rest, st =>
    match f.text with
    | none => collectAux max_chars rest st
    | some text =>
      let file_content := renderSection f.relative text
      if st.total + file_content.length > max_chars then
        if st.included = 0 then
          st.parts ++
            [renderSection f.relative
              (pyTake text ((max_chars : Int) - (st.total : Int) - 100) ++ TRUNCATION_MARKER)]
        else
          st.parts
      else
        collectAux max_chars rest
          ⟨st.parts ++ [file_content], st.total + file_content.length, st.included + 1⟩

/-- `collect_file_content` from the source: rank the candidates, run the
budget loop, join the kept sections with a blank line. -/
def collect_file_content (files : List FileEntry) (max_chars : Nat) : String :=
  joinSep "\n\n" (collectAux max_chars (sortFiles files) ⟨[], 0, 0⟩)

/-! ### Analysis of the extension-frequency fallback -/

/-- The recognized, lower-cased extensions of the candidates, in candidate
order (the subsequence of candidates that contribute to `ext_counts`). -/
def recExts (files : List String) : List String :=
  files.filterMap (fun f =>
    let ext := pyLower (pySuffix f)
    if ext ∈ CODE_EXTENSIONS then some ext else none)

/-- Append an element to a seen-list unless already present. -/
def seenAdd (seen : List String) (e : String) : List String :=
  if e ∈ seen then seen else seen ++ [e]

/-- The distinct elements of a list, in order of first occurrence. -/
def firstOccs (l : List String) : List String := l.foldl seenAdd []

/-- Closed form of the `ext_counts` dict: keys in first-occurrence order,
each paired with its multiplicity. -/
def countsClosed (l : List String) : List (String × Nat) :=
  (firstOccs l).map (fun e => (e, l.count e))

/-- No candidate filename is one of the manifest names that the detector
checks before its extension-frequency fallback. -/
def manifest_absent (files : List String) : Prop :=
  "pyproject.toml" ∉ files ∧ "setup.py" ∉ files ∧ "requirements.txt" ∉ files ∧
  "package.json" ∉ files ∧ "go.mod" ∉ files ∧ "Cargo.toml" ∉ files ∧
  "pom.xml" ∉ files ∧ "build.gradle" ∉ files

instance : DecidablePred manifest_absent := fun files => by
  unfold manifest_absent; infer_instance

theorem mem_foldl_seenAdd (l : List String) :
    ∀ (seen : List String) (a : String),
      a ∈ l.foldl seenAdd seen ↔ a ∈ seen ∨ a ∈ l := by
  induction l with
  | nil => intro seen a; simp
  | cons e l ih =>
    intro seen a
    rw [List.foldl_cons, ih]
    unfold seenAdd
    by_cases he : e ∈ seen
    · simp only [if_pos he, List.mem_cons]
      constructor
      · intro h; tauto
      · rintro (h | rfl | h) <;> tauto
    · simp only [if_neg he, List.mem_append, List.mem_singleton, List.mem_cons]
      tauto

theorem mem_firstOccs {a : String} {l : List String} : a ∈ firstOccs l ↔ a ∈ l := by
  simp [firstOccs, mem_foldl_seenAdd]

theorem firstOccs_eq_nil {l : List String} : firstOccs l = [] ↔ l = [] := by
  constructor
  · intro h
    cases l with
    | nil => rfl
    | cons a l =>
      have ha : a ∈ firstOccs (a :: l) := mem_firstOccs.mpr (List.mem_cons_self a l)
      rw [h] at ha
      cases ha
  · rintro rfl; rfl

theorem firstOccs_append_single (m : List String) (e : String) :
    firstOccs (m ++ [e]) = seenAdd (firstOccs m) e := by
  simp [firstOccs, List.foldl_append]

theorem bumpExt_countsClosed (m : List String) (e : String) :
    bumpExt (countsClosed m) e = countsClosed (m ++ [e]) := by
  by_cases he : e ∈ m
  · have hany : (countsClosed m).any (fun p => p.1 = e) = true := by
      refine List.any_eq_true.mpr ⟨(e, m.count e), ?_, by simp⟩
      exact List.mem_map.mpr ⟨e, mem_firstOccs.mpr he, rfl⟩
    rw [bumpExt, if_pos hany]
    rw [countsClosed, countsClosed, firstOccs_append_single, seenAdd,
      if_pos (mem_firstOccs.mpr he), List.map_map]
    apply List.map_congr_left
    intro x hx
    by_cases hxe : x = e
    · subst hxe; simp [List.count_append]
    · simp [Function.comp, hxe, List.count_append, List.count_singleton,
        fun h : e = x => hxe h.symm]
  · have hnotany : ¬ ((countsClosed m).any (fun p => p.1 = e) = true) := by
      intro hany
      obtain ⟨p, hp, hpe⟩ := List.any_eq_true.mp hany
      rw [countsClosed] at hp
      obtain ⟨y, hy, rfl⟩ := List.mem_map.mp hp
      obtain rfl : y = e := by simpa using hpe
      exact he (mem_firstOccs.mp hy)
    rw [bumpExt, if_neg hnotany]
    rw [countsClosed, countsClosed, firstOccs_append_single, seenAdd,
      if_neg (fun h => he (mem_firstOccs.mp h)), List.map_append]
    congr 1
    · apply List.map_congr_left
      intro x hx
      have hxm : x ∈ m := mem_firstOccs.mp hx
      have hxe : e ≠ x := fun h => he (h ▸ hxm)
      simp [List.count_append, List.count_singleton, hxe]
    · simp [List.count_append, List.count_eq_zero_of_not_mem he]

theorem foldl_bumpExt_countsClosed (l : List String) :
    ∀ m : List String, l.foldl bumpExt (countsClosed m) = countsClosed (m ++ l) := by
  induction l with
  | nil => intro m; rw [List.foldl_nil, List.append_nil]
  | cons e l ih =>
    intro m
    rw [List.foldl_cons, bumpExt_countsClosed, ih (m ++ [e])]
    simp

theorem recExts_cons (f : String) (fs : List String) :
    recExts (f :: fs) =
      if pyLower (pySuffix f) ∈ CODE_EXTENSIONS then
        pyLower (pySuffix f) :: recExts fs
      else recExts fs := by
  rw [recExts, List.filterMap_cons]
  dsimp only
  by_cases h : pyLower (pySuffix f) ∈ CODE_EXTENSIONS
  · simp only [if_pos h]; rfl
  · simp only [if_neg h]; rfl

theorem build_ext_counts_eq_closed (files : List String) :
    build_ext_counts files = countsClosed (recExts files) := by
  have fusion : ∀ (fs : List String) (acc : List (String × Nat)),
      fs.foldl
        (fun counts f =>
          let ext := pyLower (pySuffix f)
          if ext ∈ CODE_EXTENSIONS then bumpExt counts ext else counts)
        acc = (recExts fs).foldl bumpExt acc := by
    intro fs
    induction fs with
    | nil => intro acc; rfl
    | cons f fs ih =>
      intro acc
      rw [List.foldl_cons, recExts_cons]
      dsimp only
      by_cases h : pyLower (pySuffix f) ∈ CODE_EXTENSIONS
      · rw [if_pos h, if_pos h, List.foldl_cons]
        exact ih (bumpExt acc (pyLower (pySuffix f)))
      · rw [if_neg h, if_neg h]
        exact ih acc
  have h0 : (countsClosed [] : List (String × Nat)) = [] := rfl
  rw [build_ext_counts, fusion, ← h0, foldl_bumpExt_countsClosed]
  simp

theorem dictMaxGo_le_self (qs : List (String × Nat)) :
    ∀ best : String × Nat, best.2 ≤ (dictMaxGo best qs).2 := by
  induction qs with
  | nil => intro best; simp [dictMaxGo]
  | cons q qs ih =>
    intro best
    rw [dictMaxGo]
    refine le_trans ?_ (ih _)
    by_cases h : q.2 > best.2
    · simp only [if_pos h]; omega
    · simp only [if_neg h]; exact le_refl _

theorem dictMaxGo_mem_le (qs : List (String × Nat)) :
    ∀ (best p : String × Nat), p ∈ qs → p.2 ≤ (dictMaxGo best qs).2 := by
  induction qs with
  | nil => intro best p hp; cases hp
  | cons q qs ih =>
    intro best p hp
    rw [dictMaxGo]
    rcases List.mem_cons.mp hp with rfl | hp'
    · refine le_trans ?_ (dictMaxGo_le_self qs _)
      by_cases h : p.2 > best.2
      · simp only [if_pos h]; exact le_refl _
      · simp only [if_neg h]; omega
    · exact ih _ p hp'

theorem dictMaxGo_split (qs : List (String × Nat)) :
    ∀ best : String × Nat, ∃ l₁ l₂,
      best :: qs = l₁ ++ dictMaxGo best qs :: l₂ ∧
      ∀ p ∈ l₁, p.2 < (dictMaxGo best qs).2 := by
  induction qs with
  | nil =>
    intro best
    exact ⟨[], [], by simp [dictMaxGo], by simp⟩
  | cons q qs ih =>
    intro best
    rw [dictMaxGo]
    by_cases h : q.2 > best.2
    · obtain ⟨l₁, l₂, heq, hlt⟩ := ih q
      simp only [if_pos h]
      refine ⟨best :: l₁, l₂, ?_, ?_⟩
      · rw [List.cons_append]; exact congrArg (best :: ·) heq
      · intro p hp
        rcases List.mem_cons.mp hp with rfl | hp'
        · exact lt_of_lt_of_le h (dictMaxGo_le_self qs q)
        · exact hlt p hp'
    · obtain ⟨l₁, l₂, heq, hlt⟩ := ih best
      simp only [if_neg h]
      cases l₁ with
      | nil =>
        simp only [List.nil_append] at heq
        injection heq with h1 h2
        refine ⟨[], q :: qs, ?_, by simp⟩
        rw [List.nil_append, ← h1]
      | cons b l₁' =>
        rw [List.cons_append] at heq
        injection heq with hb hqs
        refine ⟨best :: q :: l₁', l₂, ?_, ?_⟩
        · rw [List.cons_append, List.cons_append]
          exact congrArg (best :: ·) (congrArg (q :: ·) hqs)
        · intro p hp
          have hbr : best.2 < (dictMaxGo best qs).2 := by
            have hb2 : best.2 = b.2 := congrArg Prod.snd hb
            rw [hb2]
            exact hlt b (List.mem_cons_self b l₁')
          rcases List.mem_cons.mp hp with rfl | hp'
          · exact hbr
          · rcases List.mem_cons.mp hp' with rfl | hp''
            · omega
            · exact hlt p (List.mem_cons_of_mem b hp'')

theorem detect_fallback_nil {files : List String} (h : manifest_absent files)
    (hbc : build_ext_counts files = []) : detect_project_type files = "Unknown" := by
  obtain ⟨h1, h2, h3, h4, h5, h6, h7, h8⟩ := h
  simp [detect_project_type, h1, h2, h3, h4, h5, h6, h7, h8, hbc]

theorem detect_fallback_cons {files : List String} {c : String × Nat}
    {cs : List (String × Nat)} (h : manifest_absent files)
    (hbc : build_ext_counts files = c :: cs) :
    detect_project_type files = (ext_to_lang.lookup (dictMaxGo c cs).1).getD "Unknown" := by
  obtain ⟨h1, h2, h3, h4, h5, h6, h7, h8⟩ := h
  simp [detect_project_type, h1, h2, h3, h4, h5, h6, h7, h8, hbc]

/-! ### Claim C3 — manifest precedence in `detect_project_type` -/

/-- C3 (amended): the detector checks manifest signals before any
extension counting, in the fixed order Python manifests, then
`package.json`, then `go.mod`, then `Cargo.toml`; so a Python manifest
always wins (even over `package.json` and any extension majority), while
`go.mod` and `Cargo.toml` win over extension counts only when
`package.json` is absent. -/
theorem claim3_manifest_precedence_amended (files : List String) :
    (("pyproject.toml" ∈ files ∨ "setup.py" ∈ files ∨ "requirements.txt" ∈ files) →
      detect_project_type files = "Python") ∧
    ("pyproject.toml" ∉ files → "setup.py" ∉ files → "requirements.txt" ∉ files →
      "package.json" ∉ files → "go.mod" ∈ files →
      detect_project_type files = "Go") ∧
    ("pyproject.toml" ∉ files → "setup.py" ∉ files → "requirements.txt" ∉ files →
      "package.json" ∉ files → "go.mod" ∉ files → "Cargo.toml" ∈ files →
      detect_project_type files = "Rust") := by
  refine ⟨?_, ?_, ?_⟩
  · intro h1
    rw [detect_project_type, if_pos h1]
  · intro h1 h2 h3 h4 h5
    rw [detect_project_type, if_neg (by simp [h1, h2, h3]), if_neg h4, if_pos h5]
  · intro h1 h2 h3 h4 h5 h6
    rw [detect_project_type, if_neg (by simp [h1, h2, h3]), if_neg h4, if_neg h5,
      if_pos h6]

/-- C3 counterexample: a candidate set holding both the Rust manifest
`Cargo.toml` and `package.json` is labelled for the JavaScript/Node
ecosystem, not Rust — the uniquely-Rust manifest does not win. -/
theorem claim3_counterexample :
    detect_project_type ["Cargo.toml", "package.json"] = "JavaScript/Node.js" ∧
    detect_project_type ["Cargo.toml", "package.json"] ≠ "Rust" := by decide

/-- C3 witness: a Python manifest wins even when `package.json` and a
majority of `.js` files are present. -/
theorem claim3_witness :
    detect_project_type ["pyproject.toml", "package.json", "a.js", "b.js"] = "Python" :=
  (claim3_manifest_precedence_amended
    ["pyproject.toml", "package.json", "a.js", "b.js"]).1 (Or.inl (by decide))

/-! ### Claim C6 — the extension-frequency fallback -/

theorem lookup_mem_snd (l : List (String × String)) :
    ∀ k v : String, l.lookup k = some v → v ∈ l.map Prod.snd := by
  induction l with
  | nil => intro k v h; cases h
  | cons p l ih =>
    intro k v h
    obtain ⟨a, b⟩ := p
    rw [List.lookup_cons] at h
    rcases hk : k == a with _ | _
    · rw [hk] at h
      exact List.mem_cons_of_mem _ (ih k v h)
    · rw [hk] at h
      injection h with hv
      rw [List.map_cons, ← hv]
      exact List.mem_cons_self _ _

theorem ext_to_lang_lookup_ne_unknown (k v : String)
    (h : ext_to_lang.lookup k = some v) : v ≠ "Unknown" := by
  intro hv
  subst hv
  exact absurd (lookup_mem_snd ext_to_lang k "Unknown" h) (by decide)

theorem build_ext_counts_eq_nil_iff (files : List String) :
    build_ext_counts files = [] ↔ recExts files = [] := by
  rw [build_ext_counts_eq_closed]
  constructor
  · intro h
    refine firstOccs_eq_nil.mp ?_
    rcases hfo : firstOccs (recExts files) with _ | ⟨a, l⟩
    · rfl
    · rw [countsClosed, hfo, List.map_cons] at h
      cases h
  · intro h
    rw [h]
    rfl

/-- C6 (amended): in the fallback, the `ext_counts` dict maps each
recognized lower-cased extension, with keys in order of first occurrence
among the candidates, to its number of occurrences; the winning extension
is the first dict entry attaining the maximum count (every strictly
earlier entry has a strictly smaller count), i.e. ties at the maximum are
broken by first occurrence among the candidates, not by which extension
first reached the maximum count; the result is the winner's entry in the
extension-to-language map, defaulting to `Unknown`. -/
theorem claim6_fallback_tiebreak_amended (files : List String)
    (h : manifest_absent files) (c : String × Nat) (cs : List (String × Nat))
    (hbc : build_ext_counts files = c :: cs) :
    detect_project_type files = (ext_to_lang.lookup (dictMaxGo c cs).1).getD "Unknown" ∧
    (∀ p ∈ c :: cs, p.2 ≤ (dictMaxGo c cs).2) ∧
    (∃ l₁ l₂, c :: cs = l₁ ++ dictMaxGo c cs :: l₂ ∧
      ∀ p ∈ l₁, p.2 < (dictMaxGo c cs).2) ∧
    build_ext_counts files =
      (firstOccs (recExts files)).map (fun e => (e, (recExts files).count e)) := by
  refine ⟨detect_fallback_cons h hbc, ?_, dictMaxGo_split cs c, ?_⟩
  · intro p hp
    rcases List.mem_cons.mp hp with rfl | hp'
    · exact dictMaxGo_le_self cs p
    · exact dictMaxGo_mem_le cs c p hp'
  · rw [build_ext_counts_eq_closed]
    rfl

/-- Modelled from the spec for comparison: "whichever extension was first
seen to reach the max count" — scan the recognized extensions in candidate
order, keeping running counts, and return the first extension whose
running count reaches `m`. -/
def runningReach (m : Nat) : List String → List String → Option String
  | _, [] => none
  | seen, e :: rest =>
    if (seen ++ [e]).count e = m then some e else runningReach m (seen ++ [e]) rest

/-- Modelled from the spec for comparison: the extension that is first to
reach the maximum final count. -/
def specFirstToReachMax (files : List String) : Option String :=
  runningReach (((recExts files).map (fun e => (recExts files).count e)).foldr max 0)
    [] (recExts files)

/-- C6 counterexample: for candidates `a.py, b.js, c.js, d.py` the counts
dict is `.py = 2, .js = 2`; the extension first seen to reach the maximum
count 2 is `.js` (mapped to `JavaScript`), but the code returns `Python`
(first-inserted key `.py` wins the tie, not first-to-reach-max). -/
theorem claim6_counterexample :
    detect_project_type ["a.py", "b.js", "c.js", "d.py"] = "Python" ∧
    specFirstToReachMax ["a.py", "b.js", "c.js", "d.py"] = some ".js" ∧
    (ext_to_lang.lookup ".js").getD "Unknown" = "JavaScript" ∧
    detect_project_type ["a.py", "b.js", "c.js", "d.py"] ≠ "JavaScript" := by decide

/-- C6 witness: the amended theorem applied to the tied candidate set. -/
theorem claim6_witness :
    detect_project_type ["a.py", "b.js", "c.js", "d.py"] =
      (ext_to_lang.lookup (dictMaxGo (".py", 2) [(".js", 2)]).1).getD "Unknown" :=
  (claim6_fallback_tiebreak_amended ["a.py", "b.js", "c.js", "d.py"] (by decide)
    (".py", 2) [(".js", 2)] (by decide)).1

/-! ### Claim C7 — when the detector returns Unknown -/

/-- C7 (amended): with no manifest signal present, the detector returns
`Unknown` iff either no candidate has a recognized source extension, or
the winning (first-maximal) recognized extension has no entry in the
extension-to-language map (as happens for `.jsx`, `.tsx`, `.h`, `.hpp`,
`.swift`). -/
theorem claim7_unknown_iff_amended (files : List String) (h : manifest_absent files) :
    detect_project_type files = "Unknown" ↔
      recExts files = [] ∨
        ∃ c cs, build_ext_counts files = c :: cs ∧
          ext_to_lang.lookup (dictMaxGo c cs).1 = none := by
  rcases hbc : build_ext_counts files with _ | ⟨c, cs⟩
  · constructor
    · intro _
      exact Or.inl ((build_ext_counts_eq_nil_iff files).mp hbc)
    · intro _
      exact detect_fallback_nil h hbc
  · rw [detect_fallback_cons h hbc]
    constructor
    · intro hu
      rcases hlk : ext_to_lang.lookup (dictMaxGo c cs).1 with _ | v
      · exact Or.inr ⟨c, cs, rfl, hlk⟩
      · rw [hlk] at hu
        simp only [Option.getD_some] at hu
        exact absurd hu (ext_to_lang_lookup_ne_unknown _ v hlk)
    · rintro (hnil | ⟨c', cs', hbc', hlk⟩)
      · have hb0 := (build_ext_counts_eq_nil_iff files).mpr hnil
        rw [hbc] at hb0
        cases hb0
      · injection hbc' with hc hcs
        subst hc
        subst hcs
        rw [hlk]
        rfl

/-- C7 counterexample: `a.swift` has a recognized source extension, no
manifest is present, yet the detector returns `Unknown` because `.swift`
has no entry in the extension-to-language map. -/
theorem claim7_counterexample :
    pyLower (pySuffix "a.swift") ∈ CODE_EXTENSIONS ∧
    detect_project_type ["a.swift"] = "Unknown" := by decide

/-- C7 witness: the amended iff applied to the `.swift` candidate set. -/
theorem claim7_witness :
    detect_project_type ["a.swift"] = "Unknown" :=
  (claim7_unknown_iff_amended ["a.swift"] (by decide)).mpr
    (Or.inr ⟨(".swift", 1), [], by decide, by decide⟩)

/-! ### Claims C5, C8, C10 — the scanner -/

/-- Core scan invariant: every path the scan loop keeps passed the
exclusion filter, so none of its segments is in `SKIP_DIRS`. -/
theorem scanFiles_no_skip_segment (rootParts : List String) (children : List FSEntry)
    (p : List String) (hp : p ∈ scanFiles rootParts children) :
    ∀ seg ∈ p, seg ∉ SKIP_DIRS := by
  intro seg hseg hskip
  obtain ⟨entry, hmem, hsome⟩ := List.mem_filterMap.mp hp
  by_cases hA : SKIP_DIRS.any (fun d => entry.1.contains d) = true
  · rw [if_pos hA] at hsome
    cases hsome
  · rw [if_neg hA] at hsome
    have hp1 : p = entry.1 := by
      by_cases hB : (!entry.2) = true
      · rw [if_pos hB] at hsome
        cases hsome
      · rw [if_neg hB] at hsome
        by_cases hC : entry.1.getLastD "" ∈ CONFIG_FILES
        · rw [if_pos hC] at hsome
          injection hsome with h
          exact h.symm
        · rw [if_neg hC] at hsome
          by_cases hD : pyLower (pySuffix (entry.1.getLastD "")) ∈ CODE_EXTENSIONS
          · rw [if_pos hD] at hsome
            injection hsome with h
            exact h.symm
          · rw [if_neg hD] at hsome
            cases hsome
    refine hA (List.any_eq_true.mpr ⟨seg, hskip, ?_⟩)
    have hsegmem : seg ∈ entry.1 := hp1 ▸ hseg
    simpa [List.contains] using List.elem_iff.mpr hsegmem

/-- C5 (confirmed): for every directory tree, the candidate list returned
by `get_project_files` contains no file any of whose path segments is in
`SKIP_DIRS` — even files whose own name or extension would qualify are
excluded when some segment matches. -/
theorem claim5_exclusion_invariant (rootParts : List String) (children : List FSEntry)
    (ps : List (List String))
    (hok : get_project_files (RootFS.dir rootParts children) = .ok ps)
    (p : List String) (hp : p ∈ ps) :
    ∀ seg ∈ p, seg ∉ SKIP_DIRS := by
  injection hok with h
  subst h
  exact scanFiles_no_skip_segment rootParts children p hp

/-- C5 witness: a kept path from a tree that also holds a `node_modules`
library and an excluded-named file. -/
theorem claim5_witness : "main.py" ∉ SKIP_DIRS :=
  claim5_exclusion_invariant [""]
    [FSEntry.file "main.py", FSEntry.file "build",
     FSEntry.dir "node_modules" [FSEntry.file "lib.js"]]
    [["", "main.py"]] rfl ["", "main.py"] (by decide) "main.py" (by decide)

/-- C8 (confirmed): `get_project_files` raises the not-found error exactly
when the root is missing, the not-a-directory `ValueError` exactly when
the root exists but is a plain file, and on a directory it returns the
scanned list — the scan itself never raises (it is total), so both errors
abort before any per-file classification. -/
theorem claim8_root_error_taxonomy (root : RootFS) :
    (get_project_files root = .error .fileNotFoundError ↔ root = .missing) ∧
    (get_project_files root = .error .valueErrorNotADirectory ↔
      ∃ n, root = .plainFile n) ∧
    (∀ parts children, root = .dir parts children →
      get_project_files root = .ok (scanFiles parts children)) := by
  cases root <;> refine ⟨?_, ?_, ?_⟩ <;> simp [get_project_files]

/-- C8 witness: the taxonomy applied to a missing root. -/
theorem claim8_witness :
    get_project_files RootFS.missing = .error .fileNotFoundError :=
  (claim8_root_error_taxonomy RootFS.missing).1.mpr rfl

/-- C10 (confirmed, implicit claim): because the exclusion check tests
every component of `path.parts` including the final filename, no file
whose own name is in `SKIP_DIRS` (e.g. a regular file named `build`
directly under the root) ever appears in the scan's output. -/
theorem claim10_skipname_file_excluded (rootParts : List String)
    (children : List FSEntry) (name : String) (hname : name ∈ SKIP_DIRS)
    (p : List String) (hp : p ∈ scanFiles rootParts children) :
    p.getLastD "" ≠ name := by
  intro heq
  rcases List.mem_cons.mp (List.getLastD_mem_cons p "") with hnil | hp'
  · have hname0 : name = "" := heq.symm.trans hnil
    subst hname0
    exact absurd hname (by decide)
  · refine scanFiles_no_skip_segment rootParts children p hp _ hp' ?_
    rw [heq]
    exact hname

/-- C10 witness: a file literally named `build` at the root is excluded —
every surviving path ends in a non-excluded name. -/
theorem claim10_witness : (["", "main.py"] : List String).getLastD "" ≠ "build" :=
  claim10_skipname_file_excluded [""]
    [FSEntry.file "build", FSEntry.file "main.py"] "build" (by decide)
    ["", "main.py"] (by decide)

/-! ### Claim C4 — the priority ranking is a stable sort by priority key -/

theorem listIndex_lt_length {s : String} : ∀ {l : List String}, s ∈ l → listIndex s l < l.length := by
  intro l
  induction l with
  | nil => intro h; cases h
  | cons p ps ih =>
    intro h
    rw [listIndex]
    by_cases hp : p = s
    · rw [if_pos hp]
      simp
    · rw [if_neg hp]
      have hs : s ∈ ps := by
        rcases List.mem_cons.mp h with rfl | hmem
        · exact absurd rfl hp
        · exact hmem
      simpa using ih hs

theorem priority_key_lt_of_mem {f : FileEntry} (h : f.name ∈ PRIORITY_FILES) :
    priority_key f < 1000 := by
  rw [priority_key, if_pos h]
  have h1 : listIndex f.name PRIORITY_FILES < PRIORITY_FILES.length := listIndex_lt_length h
  have h2 : PRIORITY_FILES.length = 15 := rfl
  omega

theorem priority_key_of_not_mem {f : FileEntry} (h : f.name ∉ PRIORITY_FILES) :
    priority_key f = 1000 := by
  rw [priority_key, if_neg h]

/-- C4 (confirmed): `sorted(files, key=priority_key)` is a stable sort by
the priority key: the output is a permutation of the input, is ordered by
priority key (so files on the priority list, whose key is their list
index, come in index order), files with equal key keep their input order
(the filter at each key value is unchanged), and no file off the priority
list ever precedes one on it. -/
theorem claim4_stable_priority_ranking (files : List FileEntry) :
    List.Perm (sortFiles files) files ∧
    List.Pairwise (fun a b => priority_key a ≤ priority_key b) (sortFiles files) ∧
    (∀ k : Nat, (sortFiles files).filter (fun f => priority_key f = k) =
      files.filter (fun f => priority_key f = k)) ∧
    List.Pairwise (fun a b => a.name ∉ PRIORITY_FILES → b.name ∉ PRIORITY_FILES)
      (sortFiles files) := by
  have htrans : ∀ a b c : FileEntry,
      decide (priority_key a ≤ priority_key b) = true →
      decide (priority_key b ≤ priority_key c) = true →
      decide (priority_key a ≤ priority_key c) = true := by
    intro a b c hab hbc
    simp only [decide_eq_true_eq] at hab hbc ⊢
    omega
  have htotal : ∀ a b : FileEntry,
      (decide (priority_key a ≤ priority_key b) ||
        decide (priority_key b ≤ priority_key a)) = true := by
    intro a b
    simp only [Bool.or_eq_true, decide_eq_true_eq]
    omega
  have hunf : sortFiles files =
      files.mergeSort (fun a b => priority_key a ≤ priority_key b) := rfl
  have hpw : (sortFiles files).Pairwise
      (fun a b => decide (priority_key a ≤ priority_key b) = true) := by
    rw [hunf]
    exact List.sorted_mergeSort htrans htotal files
  refine ⟨?_, ?_, ?_, ?_⟩
  · rw [hunf]
    exact List.mergeSort_perm files _
  · exact hpw.imp (fun h => by simpa using h)
  · intro k
    have hfilpw : (files.filter (fun f => priority_key f = k)).Pairwise
        (fun a b => decide (priority_key a ≤ priority_key b) = true) := by
      refine List.pairwise_of_forall_mem_list ?_
      intro a ha b hb
      have hka : priority_key a = k := by
        simpa using (List.mem_filter.mp ha).2
      have hkb : priority_key b = k := by
        simpa using (List.mem_filter.mp hb).2
      simp [hka, hkb]
    have hsub := List.sublist_mergeSort htrans htotal hfilpw
      (List.filter_sublist files)
    have hsubf := hsub.filter (fun f => decide (priority_key f = k))
    have hself : (files.filter (fun f => priority_key f = k)).filter
        (fun f => priority_key f = k) = files.filter (fun f => priority_key f = k) :=
      List.filter_eq_self.mpr (fun a ha => (List.mem_filter.mp ha).2)
    rw [hself] at hsubf
    have hperm : List.Perm ((files.mergeSort
        (fun a b => priority_key a ≤ priority_key b)).filter
          (fun f => priority_key f = k))
        (files.filter (fun f => priority_key f = k)) :=
      (List.mergeSort_perm files _).filter _
    rw [hunf]
    exact (hsubf.eq_of_length hperm.length_eq.symm).symm
  · refine hpw.imp ?_
    intro a b hab ha hb
    have h1 : priority_key a = 1000 := priority_key_of_not_mem ha
    have h2 : priority_key b < 1000 := priority_key_lt_of_mem hb
    simp only [decide_eq_true_eq] at hab
    omega

/-- C4 witness: the ranking applied to a concrete candidate list. -/
theorem claim4_witness :
    List.Perm (sortFiles [⟨"a.py", "a.py", none⟩, ⟨"main.py", "main.py", none⟩])
      [⟨"a.py", "a.py", none⟩, ⟨"main.py", "main.py", none⟩] :=
  (claim4_stable_priority_ranking
    [⟨"a.py", "a.py", none⟩, ⟨"main.py", "main.py", none⟩]).1

/-! ### Claims C1, C2, C9 — the budgeted aggregator -/

/-- Total character count of a list of sections. -/
def sumLen (l : List String) : Nat := (l.map String.length).sum

theorem sumLen_append_single (l : List String) (x : String) :
    sumLen (l ++ [x]) = sumLen l + x.length := by
  simp [sumLen]

/-- Joining with the blank-line separator adds two characters between
consecutive sections, which the loop's running total never counts. -/
theorem joinSep_length_le (l : List String) :
    (joinSep "\n\n" l).length ≤ sumLen l + 2 * l.length := by
  induction l with
  | nil => simp [joinSep, sumLen]
  | cons s rest ih =>
    cases rest with
    | nil => simp [joinSep, sumLen]
    | cons t ts =>
      have hstep : joinSep "\n\n" (s :: t :: ts) =
          s ++ "\n\n" ++ joinSep "\n\n" (t :: ts) := rfl
      rw [hstep]
      have h2 : ("\n\n" : String).length = 2 := rfl
      simp only [String.length_append, h2, sumLen, List.map_cons, List.sum_cons,
        List.length_cons] at *
      omega

theorem renderSection_length (rel body : String) :
    (renderSection rel body).length = rel.length + body.length + 13 := by
  have h1 : ("### " : String).length = 4 := rfl
  have h2 : ("\n```\n" : String).length = 5 := rfl
  have h3 : ("\n```" : String).length = 4 := rfl
  simp only [renderSection, String.length_append, h1, h2, h3]
  omega

theorem pyTake_length_le (s : String) (r : Int) (hr : 0 ≤ r) :
    (pyTake s r).length ≤ r.toNat := by
  rw [pyTake, if_neg (not_lt.mpr hr)]
  show (s.toList.take r.toNat).length ≤ r.toNat
  rw [List.length_take]
  exact Nat.min_le_left _ _

theorem collectAux_length_le (B : Nat) :
    ∀ (fs : List FileEntry) (st : AggState),
      (collectAux B fs st).length ≤ st.parts.length + fs.length := by
  intro fs
  induction fs with
  | nil => intro st; simp [collectAux]
  | cons f rest ih =>
    intro st
    rw [collectAux]
    cases hft : f.text with
    | none =>
      dsimp only
      exact (ih st).trans (by simp)
    | some text =>
      dsimp only
      by_cases hov : st.total + (renderSection f.relative text).length > B
      · rw [if_pos hov]
        by_cases hin : st.included = 0
        · rw [if_pos hin]
          simp
        · rw [if_neg hin]
          simp
      · rw [if_neg hov]
        refine (ih _).trans ?_
        simp
        omega

/-- Invariant of the aggregation loop: with a budget of at least 100 and
display paths of at most 75 characters, the total length of the kept
sections never exceeds the budget (the 100-character reserve covers the
13-character section framing, the path, and the 12-character marker). -/
theorem collectAux_sumLen_le (B : Nat) (hB : 100 ≤ B) :
    ∀ (fs : List FileEntry) (st : AggState),
      (∀ f ∈ fs, f.relative.length ≤ 75) →
      sumLen st.parts = st.total →
      st.total ≤ B →
      (st.included = 0 → st.total = 0) →
      sumLen (collectAux B fs st) ≤ B := by
  intro fs
  induction fs with
  | nil =>
    intro st hrel hsum htot hz
    rw [collectAux, hsum]
    exact htot
  | cons f rest ih =>
    intro st hrel hsum htot hz
    rw [collectAux]
    cases hft : f.text with
    | none =>
      dsimp only
      exact ih st (fun g hg => hrel g (List.mem_cons_of_mem f hg)) hsum htot hz
    | some text =>
      dsimp only
      by_cases hov : st.total + (renderSection f.relative text).length > B
      · rw [if_pos hov]
        by_cases hin : st.included = 0
        · rw [if_pos hin]
          have htot0 : st.total = 0 := hz hin
          have hsump : sumLen st.parts = 0 := by rw [hsum, htot0]
          have hrelf : f.relative.length ≤ 75 := hrel f (List.mem_cons_self f rest)
          have h1 := pyTake_length_le text ((B : Int) - (st.total : Int) - 100)
            (by omega)
          have h2 : ((B : Int) - (st.total : Int) - 100).toNat = B - 100 := by
            omega
          have h3 : TRUNCATION_MARKER.length = 12 := rfl
          rw [sumLen_append_single, hsump, renderSection_length,
            String.length_append, h3]
          omega
        · rw [if_neg hin, hsum]
          exact htot
      · rw [if_neg hov]
        refine ih _ (fun g hg => hrel g (List.mem_cons_of_mem f hg)) ?_ ?_ ?_
        · show sumLen (st.parts ++ [renderSection f.relative text]) =
            st.total + (renderSection f.relative text).length
          rw [sumLen_append_single, hsum]
        · show st.total + (renderSection f.relative text).length ≤ B
          omega
        · intro h
          exact absurd h (Nat.succ_ne_zero _)

/-- C1 (amended): the loop keeps the summed section lengths within the
budget, but the blank-line separators inserted by the final join are not
counted, so the guarantee is `length ≤ budget + 2·(number of candidates)`;
moreover it needs `budget ≥ 100` (the code's fixed reserve, covering the
truncation marker and section framing) and display paths of at most 75
characters — the truncation marker itself then never pushes the output
past the budget, but the separator overhead arises on any multi-section
output, not only in the first-file-oversized case. -/
theorem claim1_budget_bound_amended (files : List FileEntry) (B : Nat)
    (hB : 100 ≤ B) (hrel : ∀ f ∈ files, f.relative.length ≤ 75) :
    (collect_file_content files B).length ≤ B + 2 * files.length := by
  rw [collect_file_content]
  have hmem : ∀ f ∈ sortFiles files, f.relative.length ≤ 75 := by
    intro f hf
    rw [sortFiles] at hf
    exact hrel f (List.mem_mergeSort.mp hf)
  have hsum := collectAux_sumLen_le B hB (sortFiles files) ⟨[], 0, 0⟩ hmem rfl
    (Nat.zero_le B) (fun _ => rfl)
  have hcnt := collectAux_length_le B (sortFiles files) ⟨[], 0, 0⟩
  have hlen : (sortFiles files).length = files.length := by
    rw [sortFiles]
    exact List.length_mergeSort files
  have hjoin := joinSep_length_le (collectAux B (sortFiles files) ⟨[], 0, 0⟩)
  simp only [List.length_nil, Nat.zero_add] at hcnt
  omega

/-- C1 witness: the amended bound at a small concrete input. -/
theorem claim1_witness :
    (collect_file_content [⟨"a", "a", some "xx"⟩] 100).length ≤ 100 + 2 * 1 :=
  claim1_budget_bound_amended [⟨"a", "a", some "xx"⟩] 100 (by decide) (by decide)

/-- C1 counterexample: two sections of 16 characters each exactly fill a
budget of 32, yet the returned text has 34 characters because the
blank-line separator is not charged to the budget — the output exceeds
the budget although the first ranked readable candidate's section (16
characters) does not alone exceed it, contradicting "overhead only on the
first-file-oversized edge case". -/
theorem claim1_counterexample :
    32 < (collect_file_content [⟨"a", "a", some "xx"⟩, ⟨"b", "b", some "yy"⟩] 32).length ∧
    (renderSection "a" "xx").length ≤ 32 ∧
    (renderSection "b" "yy").length ≤ 32 := by
  have hs : sortFiles [⟨"a", "a", some "xx"⟩, ⟨"b", "b", some "yy"⟩] =
      [⟨"a", "a", some "xx"⟩, ⟨"b", "b", some "yy"⟩] := by
    rw [sortFiles]
    exact List.mergeSort_of_sorted (by decide)
  refine ⟨?_, by decide, by decide⟩
  rw [collect_file_content, hs]
  decide

/-- C2 (confirmed): when a candidate's rendered section would overflow the
budget, the loop stops at once and the result does not depend on any later
candidate (`rest` does not occur on the right-hand side): with no section
appended yet the body is cut to `budget − runningTotal − 100` characters,
the `[TRUNCATED]` marker is appended and the truncated section kept;
otherwise the section is discarded entirely. -/
theorem claim2_overflow_policy (B : Nat) (st : AggState) (f : FileEntry)
    (rest : List FileEntry) (text : String) (hread : f.text = some text)
    (hover : st.total + (renderSection f.relative text).length > B) :
    collectAux B (f :: rest) st =
      if st.included = 0 then
        st.parts ++ [renderSection f.relative
          (pyTake text ((B : Int) - (st.total : Int) - 100) ++ TRUNCATION_MARKER)]
      else st.parts := by
  rw [collectAux, hread]
  dsimp only
  rw [if_pos hover]

/-- C2 witness: an oversized first file is truncated and kept; the later
candidate is ignored. -/
theorem claim2_witness :
    collectAux 20 [⟨"b", "b", some "0123456789"⟩, ⟨"a", "a", some "xx"⟩] ⟨[], 0, 0⟩ =
      [renderSection "b"
        (pyTake "0123456789" ((20 : Int) - (0 : Int) - 100) ++ TRUNCATION_MARKER)] := by
  have h := claim2_overflow_policy 20 ⟨[], 0, 0⟩ ⟨"b", "b", some "0123456789"⟩
    [⟨"a", "a", some "xx"⟩] "0123456789" rfl (by decide)
  simpa using h

theorem collectAux_skip_none (B : Nat) (bad : FileEntry) (hbad : bad.text = none)
    (l₂ : List FileEntry) :
    ∀ (l₁ : List FileEntry) (st : AggState),
      collectAux B (l₁ ++ bad :: l₂) st = collectAux B (l₁ ++ l₂) st := by
  intro l₁
  induction l₁ with
  | nil =>
    intro st
    rw [List.nil_append, List.nil_append, collectAux, hbad]
  | cons g l₁ ih =>
    intro st
    rw [List.cons_append, List.cons_append, collectAux, collectAux]
    cases hgt : g.text with
    | none =>
      dsimp only
      exact ih st
    | some text =>
      dsimp only
      by_cases hov : st.total + (renderSection g.relative text).length > B
      · rw [if_pos hov, if_pos hov]
      · rw [if_neg hov, if_neg hov]
        exact ih _

/-- C9 (confirmed): a candidate whose read fails (`text = none`, standing
for `UnicodeDecodeError`/`PermissionError`) is silently skipped by the
aggregation loop — it consumes no budget and the aggregate over the
ranked list equals the aggregate over the ranked list with that candidate
removed; the loop is a total function, so no error is raised. -/
theorem claim9_unreadable_skipped (B : Nat) (l₁ l₂ : List FileEntry)
    (bad : FileEntry) (hbad : bad.text = none) :
    joinSep "\n\n" (collectAux B (l₁ ++ bad :: l₂) ⟨[], 0, 0⟩) =
      joinSep "\n\n" (collectAux B (l₁ ++ l₂) ⟨[], 0, 0⟩) :=
  congrArg (joinSep "\n\n") (collectAux_skip_none B bad hbad l₂ l₁ ⟨[], 0, 0⟩)

/-- C9 witness: dropping an unreadable candidate between two readable ones
leaves the aggregate unchanged. -/
theorem claim9_witness :
    joinSep "\n\n" (collectAux 32
      ([⟨"a", "a", some "xx"⟩] ++ ⟨"x", "x", none⟩ :: [⟨"b", "b", some "yy"⟩])
      ⟨[], 0, 0⟩) =
      joinSep "\n\n" (collectAux 32 ([⟨"a", "a", some "xx"⟩] ++ [⟨"b", "b", some "yy"⟩])
        ⟨[], 0, 0⟩) :=
  claim9_unreadable_skipped 32 [⟨"a", "a", some "xx"⟩] [⟨"b", "b", some "yy"⟩]
    ⟨"x", "x", none⟩ rfl
